import Mathlib

/-!
# lossyglossy: feed parser, health evaluator, stream copier, proxy handler, middleware

Shallow embedding of `main.go`.  Library calls (`encoding/xml`, `net/http`, `net/url`,
`io`) are represented by their outcomes: a decoded element tree, the result of a `Get`,
the results of `Read` and `Write` calls.  What the handlers do to the outside world is
recorded as a list of `Event`s in the order the source performs them.
-/

namespace Lossyglossy

/-! ## Errors -/

/-- Go `error` values met in `main.go`, told apart by where they are created. -/
inductive Error where
  /-- the sentinel `io.EOF` -/
  | EOF
  /-- the sentinel `io.ErrShortWrite` -/
  | ErrShortWrite
  /-- a value built by `fmt.Errorf` / `errors.New` in `main.go` -/
  | errorString (msg : String)
  /-- a value returned by `xml.Unmarshal` -/
  | xml (detail : String)
  /-- a value returned by the network stack (`Get`, body `Read`, client `Write`) -/
  | net (detail : String)
  deriving DecidableEq, Repr

/-- Go method `Error()`: the text `%v` prints for the value. -/
def Error.text : Error → String
  | .EOF => "EOF"
  | .ErrShortWrite => "short write"
  | .errorString msg => msg
  | .xml detail => detail
  | .net detail => detail

/-- Go `fmt.Errorf` with a format that has no verbs. -/
def fmt.Errorf (format : String) : Error := Error.errorString format

/-! ## Feed parser (`Rss`, `LatestItem`) -/

/-- An XML element tree as the decoder sees it: character data and elements
(names are local names; attributes, comments and directives play no part). -/
inductive Node where
  | text (data : String)
  | elem (name : String) (children : List Node)
  deriving Repr

/-- Test for an element with the given local name. -/
def Node.isElem (name : String) : Node → Bool
  | .elem n _ => n == name
  | .text _ => false

/-- Child elements with the given name, in document order. -/
def Node.childrenNamed (name : String) : Node → List Node
  | .elem _ cs => cs.filter (Node.isElem name)
  | .text _ => []

/-- Character data directly inside an element, concatenated; nested elements are skipped.
This is what the decoder stores when it maps an element to a Go `string`. -/
def Node.charData : Node → String
  | .elem _ cs => String.join (cs.map fun c => match c with
      | .text s => s
      | .elem _ _ => "")
  | .text _ => ""

/-- Elements reached from `ns` by descending through the parent names of a field tag
`a>b>...`, in document order. -/
def descend : List String → List Node → List Node
  | [], ns => ns
  | p :: ps, ns => descend ps (ns.flatMap (Node.childrenNamed p))

/-- Go struct `Rss`; the field has tag `xml:"channel>item>title"`. -/
structure Rss where
  TitleItemChannel : List String
  deriving DecidableEq, Repr

/-- Parent names of the tag of `Rss.TitleItemChannel`. -/
def Rss.tagParents : List String := ["channel", "item"]

/-- Element name of the tag of `Rss.TitleItemChannel`. -/
def Rss.tagName : String := "title"

/-- Go `xml.Unmarshal(response, &rss)` for `rss : Rss`.  `decoded` is what the decoder makes of
`response`: the error text when the decoder rejects the bytes, else the root element.  `Rss` has no
`XMLName`, so any root is taken; every element at `channel>item>title` below the root
appends its character data to the slice field. -/
def xml.Unmarshal (decoded : Except String Node) : Except Error Rss :=
  match decoded with
  | .error detail => .error (.xml detail)
  | .ok root =>
    .ok ⟨((descend Rss.tagParents [root]).flatMap (Node.childrenNamed Rss.tagName)).map Node.charData⟩

/-- Go `LatestItem`, lines 111-120 of `main.go`. -/
def LatestItem (decoded : Except String Node) : String × Option Error :=
  match xml.Unmarshal decoded with
  | .error err => ("", some err)
  | .ok rss =>
    match rss.TitleItemChannel with
    | [] => ("", some (fmt.Errorf "No items"))
    | first :: _ => (first, none)

/-- The `item` elements of a feed: `channel>item` below the root, in document order. -/
def feedItems (root : Node) : List Node := descend Rss.tagParents [root]

/-- The `title` elements of one item. -/
def itemTitles (item : Node) : List String :=
  (item.childrenNamed Rss.tagName).map Node.charData

/-- Go `strings.Contains`: `substr` occurs in `s` at some position. -/
def strings.Contains (s substr : String) : Bool :=
  s.data.tails.any fun t => substr.data.isPrefixOf t

/-! ## Events -/

/-- Result of one `Read(buf)`: `data` is `buf[:nr]`, so `nr = data.length`. -/
structure ReadResult where
  data : List UInt8
  err : Option Error
  deriving DecidableEq, Repr

/-- Result `(nw, werr)` of one `Write(p)`. -/
structure WriteResult where
  n : Int
  err : Option Error
  deriving DecidableEq, Repr

/-- What a handler does to the outside world, one entry per call, in program order. -/
inductive Event where
  /-- a call `hc.Get(url)` -/
  | get (url : String)
  /-- a call `ioutil.ReadAll(res.Body)` -/
  | readAll
  /-- a call `res.Body.Close()` -/
  | close
  /-- a line given to `log.Printf` -/
  | log (line : String)
  /-- a call `w.Header().Add(key, value)` -/
  | headerAdd (key value : String)
  /-- a call `w.WriteHeader(code)` -/
  | writeHeader (code : Int)
  /-- a call `src.Read(buf)` and its result -/
  | read (res : ReadResult)
  /-- a call `dst.Write(p)` and its result -/
  | write (p : List UInt8) (res : WriteResult)
  deriving DecidableEq, Repr

/-- Go `http.StatusInternalServerError`. -/
def StatusInternalServerError : Int := 500

/-- Go `http.StatusNoContent`. -/
def StatusNoContent : Int := 204

/-- Status codes given to `WriteHeader`, in order. -/
def statusCodes : List Event → List Int
  | [] => []
  | .writeHeader code :: rest => code :: statusCodes rest
  | _ :: rest => statusCodes rest

/-- Payloads given to `Write`, in order. -/
def payloads : List Event → List (List UInt8)
  | [] => []
  | .write p _ :: rest => p :: payloads rest
  | _ :: rest => payloads rest

/-- Chunks delivered by `Read`, in order. -/
def chunksRead : List Event → List (List UInt8)
  | [] => []
  | .read res :: rest => res.data :: chunksRead rest
  | _ :: rest => chunksRead rest

/-- Bytes the destination took: of each `Write(p)` returning `nw`, the first `nw` bytes of `p`. -/
def accepted : List Event → List UInt8
  | [] => []
  | .write p res :: rest => p.take res.n.toNat ++ accepted rest
  | _ :: rest => accepted rest

/-- Bytes the source produced: the chunks of all `Read` calls, concatenated. -/
def produced (events : List Event) : List UInt8 := (chunksRead events).flatten

/-- Test for a `Read` call. -/
def Event.isRead : Event → Bool
  | .read _ => true
  | _ => false

/-- Test for a `Write` call. -/
def Event.isWrite : Event → Bool
  | .write _ _ => true
  | _ => false

/-- Test for a `Get` call. -/
def Event.isGet : Event → Bool
  | .get _ => true
  | _ => false

/-- Test for a `WriteHeader` call. -/
def Event.isWriteHeader : Event → Bool
  | .writeHeader _ => true
  | _ => false

/-- Test for a `Close` call. -/
def Event.isClose : Event → Bool
  | .close => true
  | _ => false

/-- Test for a call that `copyResponse` makes: `Read`, `Write` or a log line. -/
def Event.isCopy : Event → Bool
  | .read _ => true
  | .write _ _ => true
  | .log _ => true
  | _ => false

/-- A call after which `copyResponse` must not read again: a `Read` that returned an error,
or a `Write` that failed or was short. -/
def Event.stops : Event → Bool
  | .read res => res.err.isSome
  | .write p res => res.err.isSome || decide ((p.length : Int) ≠ res.n)
  | _ => false

/-- No `Read` call follows a stopping call. -/
def quietAfterStop : List Event → Bool
  | [] => true
  | e :: rest => (!e.stops || rest.all fun x => !x.isRead) && quietAfterStop rest

/-! ## Health evaluator (`healthHandler`) -/

/-- What the upstream does when `healthHandler` fetches the feed. -/
inductive Fetch where
  /-- the call `hc.Get(s3)` returns an error -/
  | getFailed (err : Error)
  /-- the `Get` succeeds and `ioutil.ReadAll(res.Body)` returns an error -/
  | readFailed (err : Error)
  /-- the body is read in full; `decoded` is what the XML decoder makes of the octets -/
  | body (decoded : Except String Node)

/-- The feed address of `healthHandler`. -/
def s3 : String := "http://status.aws.amazon.com/rss/s3-us-standard.rss"

/-- Go `healthHandler`, the returned closure (lines 125-157); the deferred `Close` runs last. -/
def healthHandler (fetch : Fetch) : List Event :=
  match fetch with
  | .getFailed err =>
    [.get s3, .log ("error getting S3 health " ++ err.text),
     .writeHeader StatusInternalServerError]
  | .readFailed _ =>
    [.get s3, .readAll, .log "error reading S3 health body",
     .writeHeader StatusInternalServerError, .close]
  | .body decoded =>
    match LatestItem decoded with
    | (_, some err) =>
      [.get s3, .readAll, .log ("error interpreting S3 status response " ++ err.text),
       .writeHeader StatusInternalServerError, .close]
    | (item, none) =>
      if strings.Contains item "RESOLVED" then
        [.get s3, .readAll, .writeHeader StatusNoContent, .close]
      else
        [.get s3, .readAll, .writeHeader StatusInternalServerError, .close]

/-! ## Stream copier (`copyResponse`) -/

/-- Length of the copy buffer, `32*1024`. -/
def bufSize : Nat := 32 * 1024

/-- Conversion to `int64`: the value modulo `2^64`, taken in `[-2^63, 2^63)`. -/
def wrapInt64 (x : Int) : Int :=
  (x + 9223372036854775808) % 18446744073709551616 - 9223372036854775808

/-- An `io.Reader` with state `σ`: `Read s n` is a call with a buffer of length `n`. -/
structure Reader (σ : Type) where
  Read : σ → Nat → σ × ReadResult

/-- An `io.Writer` with state `δ`. -/
structure Writer (δ : Type) where
  Write : δ → List UInt8 → δ × WriteResult

/-- How far a run of `copyResponse` got. -/
inductive Outcome where
  /-- the loop has not returned within the iterations granted -/
  | running
  /-- the statement `return written, err` -/
  | returned (written : Int) (err : Option Error)
  /-- the slice `buf[:nr]` is out of range: `nr` exceeds the buffer -/
  | panicked
  deriving DecidableEq, Repr

/-- A run of `copyResponse`: final states, calls made, outcome. -/
structure Run (σ δ : Type) where
  src : σ
  dst : δ
  events : List Event
  outcome : Outcome

/-- The loop body's view of a read error (lines 84-86): anything but `io.EOF` is logged. -/
def logReadError : Option Error → List Event
  | none => []
  | some .EOF => []
  | some err => [.log ("error during body copy: " ++ err.text)]

/-- One pass through the loop body (lines 83-101): either the loop goes on with new states
and a new count, or the function is left. -/
inductive Step (σ δ : Type) where
  | next (src : σ) (dst : δ) (written : Int) (events : List Event)
  | done (run : Run σ δ)

/-- The loop body of `copyResponse`, lines 83-101. -/
def copyStep {σ δ : Type} (R : Reader σ) (W : Writer δ) (src : σ) (dst : δ) (written : Int) :
    Step σ δ :=
  let rd := R.Read src bufSize
  let evR := Event.read rd.2 :: logReadError rd.2.err
  if 0 < rd.2.data.length then
    if bufSize < rd.2.data.length then
      .done ⟨rd.1, dst, evR, .panicked⟩
    else
      let wr := W.Write dst rd.2.data
      let written1 := if 0 < wr.2.n then wrapInt64 (written + wr.2.n) else written
      let ev := evR ++ [Event.write rd.2.data wr.2]
      if wr.2.err.isSome then
        .done ⟨rd.1, wr.1, ev, .returned written1 wr.2.err⟩
      else if (rd.2.data.length : Int) ≠ wr.2.n then
        .done ⟨rd.1, wr.1, ev, .returned written1 (some .ErrShortWrite)⟩
      else if rd.2.err.isSome then
        .done ⟨rd.1, wr.1, ev, .returned written1 rd.2.err⟩
      else
        .next rd.1 wr.1 written1 ev
  else if rd.2.err.isSome then
    .done ⟨rd.1, dst, evR, .returned written rd.2.err⟩
  else
    .next rd.1 dst written evR

/-- The `for` loop of `copyResponse`, cut off after `fuel` passes. -/
def copyLoop {σ δ : Type} (R : Reader σ) (W : Writer δ) : Nat → σ → δ → Int → Run σ δ
  | 0, src, dst, _ => ⟨src, dst, [], .running⟩
  | fuel + 1, src, dst, written =>
    match copyStep R W src dst written with
    | .done run => run
    | .next src1 dst1 written1 events =>
      let rest := copyLoop R W fuel src1 dst1 written1
      { rest with events := events ++ rest.events }

/-- Go `copyResponse(dst, src)`, lines 79-103: the loop entered with `written = 0`. -/
def copyResponse {σ δ : Type} (R : Reader σ) (W : Writer δ) (fuel : Nat) (dst : δ) (src : σ) :
    Run σ δ :=
  copyLoop R W fuel src dst 0

/-- The results of the first `n` calls of `Read` on a source. -/
def Reader.results {σ : Type} (R : Reader σ) : Nat → σ → List ReadResult
  | 0, _ => []
  | n + 1, s => (R.Read s bufSize).2 :: Reader.results R n (R.Read s bufSize).1

/-- The calls of a pass that reads `c` without error into a destination that takes it in
full: the read and, when `c` is not empty, the write of `c`. -/
def fullPass (c : List UInt8) : List Event :=
  if c = [] then [.read ⟨[], none⟩] else [.read ⟨c, none⟩, .write c ⟨c.length, none⟩]

/-! ## Proxy handler (`downloadHandler`) -/

/-- Go `url.URL`, the fields `String()` reads (`User` is nil throughout). -/
structure URL where
  Scheme : String := ""
  Opaque : String := ""
  Host : String := ""
  Path : String := ""
  RawPath : String := ""
  ForceQuery : Bool := false
  RawQuery : String := ""
  Fragment : String := ""
  deriving DecidableEq, Repr

/-- Percent-encoding as done by `net/url`: of a host, of a path (`EscapedPath`, from `Path`
and `RawPath`) and of a fragment. -/
structure Escaper where
  host : String → String
  path : String → String → String
  fragment : String → String

/-- Go `(*URL).String()`, for a URL without user information (`User` nil, `OmitHost` unset). -/
def URL.String (esc : Escaper) (u : URL) : String :=
  let buf := if u.Scheme ≠ "" then u.Scheme ++ ":" else ""
  let buf :=
    if u.Opaque ≠ "" then buf ++ u.Opaque
    else
      let buf :=
        if u.Scheme ≠ "" ∨ u.Host ≠ "" then
          let buf := if u.Host ≠ "" ∨ u.Path ≠ "" then buf ++ "//" else buf
          if u.Host ≠ "" then buf ++ esc.host u.Host else buf
        else buf
      let path := esc.path u.Path u.RawPath
      let buf :=
        if path ≠ "" ∧ path.data.head? ≠ some '/' ∧ u.Host ≠ "" then buf ++ "/" else buf
      let buf :=
        if buf = "" ∧ (path.data.takeWhile fun c => c ≠ '/').contains ':' then buf ++ "./"
        else buf
      buf ++ path
  let buf := if u.ForceQuery ∨ u.RawQuery ≠ "" then buf ++ "?" ++ u.RawQuery else buf
  if u.Fragment ≠ "" then buf ++ "#" ++ esc.fragment u.Fragment else buf

/-- Go `http.Header`: the values stored under each key. -/
def Header : Type := String → List String

/-- Go `Header.Add` for a key already in canonical form (as `X-Proxy-Version` is):
the value is appended to the values under the key. -/
def Header.Add (h : Header) (key value : String) : Header :=
  fun k => if k = key then h k ++ [value] else h k

/-- An inbound `*http.Request`. -/
structure Request where
  Method : String
  URL : URL
  Header : Header
  Body : List UInt8

/-- The constant `downloads` of `downloadHandler`. -/
def downloads : String := "https://docs.influxdata.com/influxdb/v1.2/concepts/glossary"

/-- The value `url.Parse(downloads)` gives: `docsURL` when the closure is created. -/
def docsURL0 : URL :=
  { Scheme := "https", Host := "docs.influxdata.com", Path := "/influxdb/v1.2/concepts/glossary" }

/-- Result of `hc.Get`: an error, or a response with a status code and a body to read. -/
inductive GetResult (σ : Type) where
  | failed (err : Error)
  | response (StatusCode : Int) (Body : σ)

/-- One call of the closure `downloadHandler` returns: the captured `docsURL` afterwards,
the calls made, whether the closure has returned, and the client writer afterwards. -/
structure HandlerRun (δ : Type) where
  docsURL : URL
  events : List Event
  finished : Bool
  dst : δ

/-- Go `downloadHandler`, the returned closure (lines 50-68).  `docsURL` is the captured
variable, `Get` the upstream as seen through `hc.Get`, `w` the client writer. -/
def downloadHandler {σ δ : Type} (esc : Escaper) (R : Reader σ) (W : Writer δ) (fuel : Nat)
    (Get : String → GetResult σ) (docsURL : URL) (w : δ) (r : Request) : HandlerRun δ :=
  let docsURL1 := { docsURL with Fragment := r.URL.Fragment }
  let target := docsURL1.String esc
  match Get target with
  | .failed err =>
    ⟨docsURL1, [.get target, .log ("error glossary term " ++ err.text),
      .writeHeader StatusInternalServerError], true, w⟩
  | .response code body =>
    let run := copyResponse R W fuel w body
    match run.outcome with
    | .running => ⟨docsURL1, [.get target, .writeHeader code] ++ run.events, false, run.dst⟩
    | _ => ⟨docsURL1, [.get target, .writeHeader code] ++ run.events ++ [.close], true, run.dst⟩

/-- One inbound request as the proxy handler meets it: the request, its client writer and
the upstream at that time. -/
structure Exchange (σ δ : Type) where
  r : Request
  w : δ
  Get : String → GetResult σ

/-- The same closure serving requests one after another; `docsURL` is carried over. -/
def serveAll {σ δ : Type} (esc : Escaper) (R : Reader σ) (W : Writer δ) (fuel : Nat) :
    URL → List (Exchange σ δ) → List (HandlerRun δ)
  | _, [] => []
  | docsURL, x :: xs =>
    let run := downloadHandler esc R W fuel x.Get docsURL x.w x.r
    run :: serveAll esc R W fuel run.docsURL xs

/-- URLs given to `Get`, in order. -/
def getURLs : List Event → List String
  | [] => []
  | .get url :: rest => url :: getURLs rest
  | _ :: rest => getURLs rest

/-! ## Middleware (`Version`, `Logger`) -/

/-- The constant `version`. -/
def version : String := "1.0"

/-- An `http.ResponseWriter` together with the calls made so far. -/
structure ResponseWriter where
  header : Header
  events : List Event

/-- An `http.Handler`: `ServeHTTP(w, r)`, with whatever it yields. -/
def Handler (ρ : Type) : Type := ResponseWriter → Request → ρ

/-- Go `Version`, lines 22-28. -/
def Version {ρ : Type} (h : Handler ρ) : Handler ρ := fun w r =>
  h { header := w.header.Add "X-Proxy-Version" version,
      events := w.events ++ [.headerAdd "X-Proxy-Version" version] } r

/-- Go `Logger`, lines 31-37. -/
def Logger {ρ : Type} (esc : Escaper) (next : Handler ρ) : Handler ρ := fun w r =>
  next { w with events := w.events ++ [.log ("info " ++ r.URL.String esc)] } r

/-! ## Sample readers, writers and documents -/

/-- A reader over a byte slice, as `bytes.Reader`: hands out what fits, then `io.EOF`. -/
def bytesReader : Reader (List UInt8) :=
  ⟨fun s n => if s.isEmpty then (s, ⟨[], some .EOF⟩) else (s.drop n, ⟨s.take n, none⟩)⟩

/-- A reader that replays a list of results, then reports `io.EOF`. -/
def scriptReader : Reader (List ReadResult) :=
  ⟨fun s _ => match s with
    | [] => ([], ⟨[], some .EOF⟩)
    | res :: rest => (rest, res)⟩

/-- A reader that never has data and never fails. -/
def idleReader : Reader Unit := ⟨fun s _ => (s, ⟨[], none⟩)⟩

/-- A writer that keeps everything it is given. -/
def recorder : Writer (List UInt8) := ⟨fun d p => (d ++ p, ⟨p.length, none⟩)⟩

/-- A writer with room for `cap` bytes: it takes what fits and reports the count, no error. -/
def cappedWriter (cap : Nat) : Writer (List UInt8) :=
  ⟨fun d p => (d ++ p.take (cap - d.length), ⟨min p.length (cap - d.length), none⟩)⟩

/-- Escaping of strings that need none. -/
def plainEscaper : Escaper := ⟨fun h => h, fun path _ => path, fun f => f⟩

/-- The first item of the feed of `TestLatestItem` (white space and the description left
out). -/
def itemOfTest1 : Node :=
  .elem "item" [
    .elem "title" [.text "Service disruption: [RESOLVED] Increased Error Rates"],
    .elem "link" [.text "http://status.aws.amazon.com/"],
    .elem "pubDate" [.text "Tue, 28 Feb 2017 14:11:00 PST"],
    .elem "guid" [.text "http://status.aws.amazon.com/#s3-us-standard_1488319860"]]

/-- The second item of the feed of `TestLatestItem` (white space and the description left
out). -/
def itemOfTest2 : Node :=
  .elem "item" [
    .elem "title" [.text "Service disruption: [RESOLVED] Increased Error Rates"],
    .elem "link" [.text "http://status.aws.amazon.com/"],
    .elem "pubDate" [.text "Tue, 28 Feb 2017 13:13:00 PST"],
    .elem "guid" [.text "http://status.aws.amazon.com/#s3-us-standard_1488316380"]]

/-- The feed of `TestLatestItem` (white space between elements left out): a channel with
its own two titles and two items. -/
def feedOfTest : Node :=
  .elem "rss" [.elem "channel" [
    .elem "title" [.text "Amazon Simple Storage Service (US Standard) Service Status"],
    .elem "link" [.text "http://status.aws.amazon.com/"],
    .elem "link" [],
    .elem "title"
      [.text "Current service status feed for Amazon Simple Storage Service (US Standard)."],
    .elem "language" [.text "en-us"],
    .elem "pubDate" [.text "Wed,  8 Mar 2017 13:16:09 PST"],
    .elem "updated" [.text "Wed,  8 Mar 2017 13:16:09 PST"],
    .elem "generator" [.text "AWS Service Health Dashboard RSS Generator"],
    .elem "ttl" [.text "5"],
    itemOfTest1,
    itemOfTest2]]

/-- The feed `<rss><channel><item><link>x</link></item><item><title>B</title></item>`
`</channel></rss>`: the first item has no title. -/
def feedFirstUntitled : Node :=
  .elem "rss" [.elem "channel" [
    .elem "item" [.elem "link" [.text "x"]],
    .elem "item" [.elem "title" [.text "B"]]]]

/-- The feed `<rss><channel><item><link>x</link></item></channel></rss>`: one item, no
title. -/
def feedOnlyUntitled : Node :=
  .elem "rss" [.elem "channel" [.elem "item" [.elem "link" [.text "x"]]]]

/-- The feed `<rss><channel></channel></rss>`. -/
def feedEmpty : Node := .elem "rss" [.elem "channel" []]

/-! ## Feed parser: theorems -/

/-- The slice filled by `xml.Unmarshal` lists the titles of the items, item by item. -/
theorem unmarshal_titles (root : Node) :
    xml.Unmarshal (.ok root) = .ok ⟨(feedItems root).flatMap itemTitles⟩ := by
  simp only [xml.Unmarshal, feedItems, List.map_flatMap]
  rfl

/-- Occurrence at some position: `strings.Contains` holds exactly when the string splits
around the substring. -/
theorem contains_iff (s substr : String) :
    strings.Contains s substr = true ↔ ∃ pre post, s.data = pre ++ substr.data ++ post := by
  unfold strings.Contains
  rw [List.any_eq_true]
  constructor
  · rintro ⟨t, ht, hp⟩
    rw [List.mem_tails] at ht
    rw [List.isPrefixOf_iff_prefix] at hp
    obtain ⟨pre, hpre⟩ := ht
    obtain ⟨post, hpost⟩ := hp
    exact ⟨pre, post, by rw [← hpre, ← hpost, List.append_assoc]⟩
  · rintro ⟨pre, post, h⟩
    refine ⟨substr.data ++ post, ?_, ?_⟩
    · rw [List.mem_tails]
      exact ⟨pre, by rw [h, List.append_assoc]⟩
    · rw [List.isPrefixOf_iff_prefix]
      exact ⟨post, rfl⟩

/-- C1, as stated, fails: in the feed whose first item has no title element the two items
have the titles `[]` and `["B"]`, and `LatestItem` returns `"B"`, the title of the second
item, with a nil error; in the feed whose only item has no title `LatestItem` returns the
error `No items`, although the channel has one item. -/
theorem LatestItem_skips_untitled_item :
    (feedItems feedFirstUntitled).map itemTitles = [[], ["B"]] ∧
      LatestItem (.ok feedFirstUntitled) = ("B", none) ∧
      (feedItems feedOnlyUntitled).length = 1 ∧
      LatestItem (.ok feedOnlyUntitled) = ("", some (fmt.Errorf "No items")) := by
  decide

/-- C1, amended: when the first item of a decoded feed has a title element, `LatestItem`
returns the text of that item's first title with a nil error, whatever the other items, the
other titles and the other children of the channel are. -/
theorem LatestItem_first_titled (root item : Node) (rest : List Node) (title : String)
    (more : List String) (hitems : feedItems root = item :: rest)
    (htitle : itemTitles item = title :: more) :
    LatestItem (.ok root) = (title, none) := by
  unfold LatestItem
  rw [unmarshal_titles, hitems]
  simp [htitle]

/-- The feed of `TestLatestItem` meets the hypotheses of `LatestItem_first_titled`: the
result is the first item's title, as the test expects, and none of the channel's own. -/
theorem LatestItem_first_titled_witness :
    LatestItem (.ok feedOfTest)
      = ("Service disruption: [RESOLVED] Increased Error Rates", none) :=
  LatestItem_first_titled feedOfTest itemOfTest1 [itemOfTest2]
    "Service disruption: [RESOLVED] Increased Error Rates" [] rfl rfl

/-- C2: a decoded feed with no item makes `LatestItem` return the empty string and the
error `No items`; a document the decoder rejects makes it return the empty string and the
decoder's error; the two errors differ, so neither case yields the other's error. -/
theorem LatestItem_no_items (root : Node) (detail : String) (hitems : feedItems root = []) :
    LatestItem (.ok root) = ("", some (fmt.Errorf "No items")) ∧
      (fmt.Errorf "No items").text = "No items" ∧
      LatestItem (.error detail) = ("", some (.xml detail)) ∧
      LatestItem (.error detail) ≠ ("", some (fmt.Errorf "No items")) ∧
      LatestItem (.ok root) ≠ LatestItem (.error detail) := by
  have h1 : LatestItem (.ok root) = ("", some (fmt.Errorf "No items")) := by
    unfold LatestItem
    rw [unmarshal_titles, hitems]
    rfl
  have h2 : LatestItem (.error detail) = ("", some (.xml detail)) := rfl
  refine ⟨h1, rfl, h2, ?_, ?_⟩
  · rw [h2]
    simp [fmt.Errorf]
  · rw [h1, h2]
    simp [fmt.Errorf]

/-- The feed `<rss><channel></channel></rss>` has no item. -/
theorem LatestItem_no_items_witness :
    LatestItem (.ok feedEmpty) = ("", some (fmt.Errorf "No items")) ∧
      LatestItem (.error "XML syntax error on line 1: unexpected EOF")
        ≠ ("", some (fmt.Errorf "No items")) :=
  ⟨(LatestItem_no_items feedEmpty "XML syntax error on line 1: unexpected EOF"
      rfl).1,
   (LatestItem_no_items feedEmpty "XML syntax error on line 1: unexpected EOF"
      rfl).2.2.2.1⟩

/-! ## Health evaluator: theorems -/

/-- C3: for every outcome of the fetch, `healthHandler` calls `WriteHeader` exactly once and
never calls `Write`; the code is 204 exactly when the body was read, `LatestItem` returned a
title with a nil error and the title contains `RESOLVED` at some position, and 500 in
every other case. -/
theorem healthHandler_status (fetch : Fetch) :
    (statusCodes (healthHandler fetch) = [204] ↔
        ∃ decoded title pre post, fetch = .body decoded ∧ LatestItem decoded = (title, none) ∧
          title.data = pre ++ "RESOLVED".data ++ post) ∧
      (statusCodes (healthHandler fetch) ≠ [204] → statusCodes (healthHandler fetch) = [500]) ∧
      payloads (healthHandler fetch) = [] := by
  cases fetch with
  | getFailed err => simp [healthHandler, statusCodes, payloads, StatusInternalServerError]
  | readFailed err => simp [healthHandler, statusCodes, payloads, StatusInternalServerError]
  | body decoded =>
    rcases hL : LatestItem decoded with ⟨item, _ | err⟩
    · by_cases hc : strings.Contains item "RESOLVED" = true
      · have hsplit := (contains_iff item "RESOLVED").1 hc
        obtain ⟨pre, post, hpp⟩ := hsplit
        simp only [healthHandler, hL, hc, statusCodes, payloads, StatusNoContent]
        refine ⟨⟨fun _ => ⟨decoded, item, pre, post, rfl, hL, hpp⟩, fun _ => by simp⟩, ?_, ?_⟩
        · simp
        · simp
      · have hno : ¬ ∃ pre post, item.data = pre ++ "RESOLVED".data ++ post :=
          fun h => hc ((contains_iff item "RESOLVED").2 h)
        simp only [healthHandler, hL, hc, statusCodes, payloads, StatusInternalServerError]
        refine ⟨⟨fun h => by simp at h, ?_⟩, ?_, ?_⟩
        · rintro ⟨decoded1, title, pre, post, hf, hL1, hpp⟩
          injection hf with hf
          subst hf
          rw [hL] at hL1
          injection hL1 with ht _
          subst ht
          exact absurd ⟨pre, post, hpp⟩ hno
        · simp
        · simp
    · simp only [healthHandler, hL, statusCodes, payloads, StatusInternalServerError]
      refine ⟨⟨fun h => by simp at h, ?_⟩, ?_, ?_⟩
      · rintro ⟨decoded1, title, pre, post, hf, hL1, hpp⟩
        injection hf with hf
        subst hf
        rw [hL] at hL1
        simp at hL1
      · simp
      · simp

/-! ## Stream copier: lemmas -/

theorem wrapInt64_of_range (x : Int) (h0 : -9223372036854775808 ≤ x)
    (h1 : x < 9223372036854775808) : wrapInt64 x = x := by
  unfold wrapInt64
  omega

theorem wrapInt64_wrap_add (a b : Int) : wrapInt64 (wrapInt64 a + b) = wrapInt64 (a + b) := by
  unfold wrapInt64
  omega

theorem wrapInt64_idem (a : Int) : wrapInt64 (wrapInt64 a) = wrapInt64 a := by
  unfold wrapInt64
  omega

/-- Induction over the passes of the loop. -/
theorem copyLoop_induct {σ δ : Type} (R : Reader σ) (W : Writer δ)
    (P : σ → δ → Int → Run σ δ → Prop)
    (h0 : ∀ src dst written, P src dst written ⟨src, dst, [], .running⟩)
    (hdone : ∀ src dst written run, copyStep R W src dst written = .done run →
      P src dst written run)
    (hnext : ∀ src dst written src1 dst1 written1 events rest,
      copyStep R W src dst written = .next src1 dst1 written1 events →
      P src1 dst1 written1 rest →
      P src dst written { rest with events := events ++ rest.events })
    (fuel : Nat) (src : σ) (dst : δ) (written : Int) :
    P src dst written (copyLoop R W fuel src dst written) := by
  induction fuel generalizing src dst written with
  | zero => exact h0 src dst written
  | succ n ih =>
    unfold copyLoop
    cases hs : copyStep R W src dst written with
    | done run => exact hdone _ _ _ _ hs
    | next src1 dst1 written1 events =>
      exact hnext _ _ _ _ _ _ _ _ hs (ih src1 dst1 written1)

/-- What is known when a pass lets the loop go on: the read gave no error and fitted the
buffer, and either it was empty or its bytes were written in full. -/
theorem copyStep_next {σ δ : Type} (R : Reader σ) (W : Writer δ) (src : σ) (dst : δ)
    (written : Int) (src1 : σ) (dst1 : δ) (written1 : Int) (events : List Event)
    (h : copyStep R W src dst written = .next src1 dst1 written1 events) :
    ∃ data, R.Read src bufSize = (src1, ⟨data, none⟩) ∧ data.length ≤ bufSize ∧
      ((data = [] ∧ dst1 = dst ∧ written1 = written ∧ events = [.read ⟨[], none⟩]) ∨
       (data ≠ [] ∧ W.Write dst data = (dst1, ⟨data.length, none⟩) ∧
         written1 = wrapInt64 (written + data.length) ∧
         events = [.read ⟨data, none⟩, .write data ⟨data.length, none⟩])) := by
  unfold copyStep at h
  rcases hr : R.Read src bufSize with ⟨s1, ⟨data, rerr⟩⟩
  rw [hr] at h
  simp only at h
  refine ⟨data, ?_⟩
  by_cases h1 : 0 < data.length
  · rw [if_pos h1] at h
    by_cases h2 : bufSize < data.length
    · rw [if_pos h2] at h
      cases h
    · rw [if_neg h2] at h
      rcases hw : W.Write dst data with ⟨d1, ⟨n, werr⟩⟩
      rw [hw] at h
      simp only at h
      by_cases h3 : werr.isSome = true
      · rw [if_pos h3] at h
        cases h
      · rw [if_neg h3] at h
        by_cases h4 : (data.length : Int) ≠ n
        · rw [if_pos h4] at h
          cases h
        · rw [if_neg h4] at h
          by_cases h5 : rerr.isSome = true
          · rw [if_pos h5] at h
            cases h
          · rw [if_neg h5] at h
            have hn : (data.length : Int) = n := not_not.1 h4
            have hpos : 0 < n := by omega
            rw [if_pos hpos] at h
            have he : rerr = none := by cases rerr <;> simp_all
            have hwe : werr = none := by cases werr <;> simp_all
            subst he hwe
            injection h with e1 e2 e3 e4
            subst e1 e2 e3 e4
            refine ⟨rfl, by omega, Or.inr ⟨?_, ?_, ?_, ?_⟩⟩
            · intro hd
              rw [hd] at h1
              simp at h1
            · rw [hn]
            · rw [hn]
            · rw [hn]
              rfl
  · rw [if_neg h1] at h
    by_cases h5 : rerr.isSome = true
    · rw [if_pos h5] at h
      cases h
    · rw [if_neg h5] at h
      have hd : data = [] := List.eq_nil_of_length_eq_zero (by omega)
      have he : rerr = none := by cases rerr <;> simp_all
      subst hd he
      injection h with e1 e2 e3 e4
      subst e1 e2 e3 e4
      exact ⟨rfl, by simp, Or.inl ⟨rfl, rfl, rfl, rfl⟩⟩

/-- What is known when a pass leaves the function: the slice was out of range, or an empty
read came with an error, or a write was made and the write failed, was short, or the read
had come with an error. -/
theorem copyStep_done {σ δ : Type} (R : Reader σ) (W : Writer δ) (src : σ) (dst : δ)
    (written : Int) (run : Run σ δ) (h : copyStep R W src dst written = .done run) :
    ∃ data rerr, R.Read src bufSize = (run.src, ⟨data, rerr⟩) ∧
      ((bufSize < data.length ∧ run.dst = dst ∧
          run.events = Event.read ⟨data, rerr⟩ :: logReadError rerr ∧
          run.outcome = .panicked) ∨
       (data = [] ∧ rerr ≠ none ∧ run.dst = dst ∧
          run.events = Event.read ⟨data, rerr⟩ :: logReadError rerr ∧
          run.outcome = .returned written rerr) ∨
       (∃ n werr err, data ≠ [] ∧ data.length ≤ bufSize ∧
          W.Write dst data = (run.dst, ⟨n, werr⟩) ∧
          run.events
            = Event.read ⟨data, rerr⟩ :: (logReadError rerr ++ [Event.write data ⟨n, werr⟩]) ∧
          run.outcome = .returned (if 0 < n then wrapInt64 (written + n) else written) err ∧
          err ≠ none ∧
          ((werr ≠ none ∧ err = werr) ∨
           (werr = none ∧ (data.length : Int) ≠ n ∧ err = some .ErrShortWrite) ∨
           (werr = none ∧ (data.length : Int) = n ∧ err = rerr)))) := by
  unfold copyStep at h
  rcases hr : R.Read src bufSize with ⟨s1, ⟨data, rerr⟩⟩
  rw [hr] at h
  simp only at h
  refine ⟨data, rerr, ?_⟩
  by_cases h1 : 0 < data.length
  · rw [if_pos h1] at h
    by_cases h2 : bufSize < data.length
    · rw [if_pos h2] at h
      injection h with h
      subst h
      exact ⟨rfl, Or.inl ⟨h2, rfl, rfl, rfl⟩⟩
    · rw [if_neg h2] at h
      have hd : data ≠ [] := by
        intro hd
        rw [hd] at h1
        simp at h1
      rcases hw : W.Write dst data with ⟨d1, ⟨n, werr⟩⟩
      rw [hw] at h
      simp only at h
      by_cases h3 : werr.isSome = true
      · rw [if_pos h3] at h
        injection h with h
        subst h
        have hwe : werr ≠ none := by cases werr <;> simp_all
        exact ⟨rfl, Or.inr (Or.inr ⟨n, werr, werr, hd, by omega, rfl, rfl, rfl, hwe,
          Or.inl ⟨hwe, rfl⟩⟩)⟩
      · rw [if_neg h3] at h
        have hwe : werr = none := by cases werr <;> simp_all
        by_cases h4 : (data.length : Int) ≠ n
        · rw [if_pos h4] at h
          injection h with h
          subst h
          exact ⟨rfl, Or.inr (Or.inr ⟨n, werr, some .ErrShortWrite, hd, by omega, rfl, rfl, rfl,
            by simp, Or.inr (Or.inl ⟨hwe, h4, rfl⟩)⟩)⟩
        · rw [if_neg h4] at h
          by_cases h5 : rerr.isSome = true
          · rw [if_pos h5] at h
            injection h with h
            subst h
            have hre : rerr ≠ none := by cases rerr <;> simp_all
            exact ⟨rfl, Or.inr (Or.inr ⟨n, werr, rerr, hd, by omega, rfl, rfl, rfl, hre,
              Or.inr (Or.inr ⟨hwe, not_not.1 h4, rfl⟩)⟩)⟩
          · rw [if_neg h5] at h
            cases h
  · rw [if_neg h1] at h
    by_cases h5 : rerr.isSome = true
    · rw [if_pos h5] at h
      injection h with h
      subst h
      have hd : data = [] := List.eq_nil_of_length_eq_zero (by omega)
      have hre : rerr ≠ none := by cases rerr <;> simp_all
      exact ⟨rfl, Or.inr (Or.inl ⟨hd, hre, rfl, rfl, rfl⟩)⟩
    · rw [if_neg h5] at h
      cases h

/-! ### Observers on concatenated traces -/

theorem isEmpty_false_of_ne_nil {α : Type} (l : List α) (h : l ≠ []) : l.isEmpty = false := by
  cases l with
  | nil => exact absurd rfl h
  | cons _ _ => rfl


theorem accepted_append (a b : List Event) : accepted (a ++ b) = accepted a ++ accepted b := by
  induction a with
  | nil => rfl
  | cons e rest ih => cases e <;> simp [accepted, ih]

theorem payloads_append (a b : List Event) : payloads (a ++ b) = payloads a ++ payloads b := by
  induction a with
  | nil => rfl
  | cons e rest ih => cases e <;> simp [payloads, ih]

theorem chunksRead_append (a b : List Event) :
    chunksRead (a ++ b) = chunksRead a ++ chunksRead b := by
  induction a with
  | nil => rfl
  | cons e rest ih => cases e <;> simp [chunksRead, ih]

theorem statusCodes_append (a b : List Event) :
    statusCodes (a ++ b) = statusCodes a ++ statusCodes b := by
  induction a with
  | nil => rfl
  | cons e rest ih => cases e <;> simp [statusCodes, ih]

theorem getURLs_append (a b : List Event) : getURLs (a ++ b) = getURLs a ++ getURLs b := by
  induction a with
  | nil => rfl
  | cons e rest ih => cases e <;> simp [getURLs, ih]

theorem produced_append (a b : List Event) : produced (a ++ b) = produced a ++ produced b := by
  simp [produced, chunksRead_append]

theorem logReadError_isCopy (err : Option Error) : ∀ e ∈ logReadError err, e.isCopy = true := by
  intro e he
  rcases err with _ | err
  · simp [logReadError] at he
  · cases err <;> simp [logReadError] at he <;> subst he <;> rfl

theorem accepted_logReadError (err : Option Error) : accepted (logReadError err) = [] := by
  rcases err with _ | err
  · rfl
  · cases err <;> rfl

theorem payloads_logReadError (err : Option Error) : payloads (logReadError err) = [] := by
  rcases err with _ | err
  · rfl
  · cases err <;> rfl

theorem chunksRead_logReadError (err : Option Error) : chunksRead (logReadError err) = [] := by
  rcases err with _ | err
  · rfl
  · cases err <;> rfl

theorem all_notRead_logReadError (err : Option Error) :
    (logReadError err).all (fun x => !x.isRead) = true := by
  rcases err with _ | err
  · rfl
  · cases err <;> rfl

theorem write_not_mem_logReadError (err : Option Error) (p : List UInt8) (wr : WriteResult) :
    Event.write p wr ∉ logReadError err := by
  intro h
  have := logReadError_isCopy err _ h
  rcases err with _ | err
  · simp [logReadError] at h
  · cases err <;> simp [logReadError] at h

/-! ### Invariants of the copy loop -/

/-- The bytes taken by the destination are an initial part of the bytes produced. -/
theorem accepted_prefix_produced {σ δ : Type} (R : Reader σ) (W : Writer δ) (fuel : Nat)
    (src : σ) (dst : δ) (written : Int) :
    accepted (copyLoop R W fuel src dst written).events
      <+: produced (copyLoop R W fuel src dst written).events := by
  refine copyLoop_induct R W (fun _ _ _ run => accepted run.events <+: produced run.events)
    ?_ ?_ ?_ fuel src dst written
  · intro _ _ _
    exact List.prefix_refl _
  · intro src dst written run h
    obtain ⟨data, rerr, _, hc⟩ := copyStep_done R W src dst written run h
    rcases hc with ⟨_, _, hev, _⟩ | ⟨_, _, _, hev, _⟩ | ⟨n, werr, err, _, _, _, hev, _⟩
    · rw [hev]
      simp [accepted, accepted_logReadError]
    · rw [hev]
      simp [accepted, accepted_logReadError]
    · rw [hev]
      simp [accepted, produced, chunksRead, accepted_append, chunksRead_append,
        accepted_logReadError, chunksRead_logReadError, List.take_prefix]
  · intro src dst written src1 dst1 written1 events rest h ih
    obtain ⟨data, _, _, hc⟩ := copyStep_next R W src dst written src1 dst1 written1 events h
    simp only [accepted_append, produced_append]
    rcases hc with ⟨_, _, _, hev⟩ | ⟨_, _, _, hev⟩
    · rw [hev]
      simpa [accepted, produced, chunksRead] using ih
    · rw [hev]
      simpa [accepted, produced, chunksRead] using ih

/-- Every call made by the loop is a `Read`, a `Write` or a log line. -/
theorem copyLoop_events_isCopy {σ δ : Type} (R : Reader σ) (W : Writer δ) (fuel : Nat)
    (src : σ) (dst : δ) (written : Int) :
    ∀ e ∈ (copyLoop R W fuel src dst written).events, e.isCopy = true := by
  refine copyLoop_induct R W (fun _ _ _ run => ∀ e ∈ run.events, e.isCopy = true)
    ?_ ?_ ?_ fuel src dst written
  · intro _ _ _ e he
    simp at he
  · intro src dst written run h e he
    obtain ⟨data, rerr, _, hc⟩ := copyStep_done R W src dst written run h
    rcases hc with ⟨_, _, hev, _⟩ | ⟨_, _, _, hev, _⟩ | ⟨n, werr, err, _, _, _, hev, _⟩
    · rw [hev] at he
      rcases List.mem_cons.1 he with rfl | he
      · rfl
      · exact logReadError_isCopy _ _ he
    · rw [hev] at he
      rcases List.mem_cons.1 he with rfl | he
      · rfl
      · exact logReadError_isCopy _ _ he
    · rw [hev] at he
      rcases List.mem_cons.1 he with rfl | he
      · rfl
      · rcases List.mem_append.1 he with he | he
        · exact logReadError_isCopy _ _ he
        · simp at he
          subst he
          rfl
  · intro src dst written src1 dst1 written1 events rest h ih e he
    obtain ⟨data, _, _, hc⟩ := copyStep_next R W src dst written src1 dst1 written1 events h
    rcases List.mem_append.1 he with he | he
    · rcases hc with ⟨_, _, _, hev⟩ | ⟨_, _, _, hev⟩
      · rw [hev] at he
        simp at he
        subst he
        rfl
      · rw [hev] at he
        simp at he
        rcases he with rfl | rfl <;> rfl
    · exact ih e he

/-- The error returned by the loop is never nil. -/
theorem copyLoop_error_ne_nil {σ δ : Type} (R : Reader σ) (W : Writer δ) (fuel : Nat)
    (src : σ) (dst : δ) (written : Int) (c : Int) (err : Option Error)
    (hret : (copyLoop R W fuel src dst written).outcome = .returned c err) : err ≠ none := by
  revert c err
  refine copyLoop_induct R W
    (fun _ _ _ run => ∀ c err, run.outcome = .returned c err → err ≠ none)
    ?_ ?_ ?_ fuel src dst written
  · intro _ _ _ c err h
    cases h
  · intro src dst written run h c err hret
    obtain ⟨data, rerr, _, hc⟩ := copyStep_done R W src dst written run h
    rcases hc with ⟨_, _, _, hout⟩ | ⟨_, hne, _, _, hout⟩ |
      ⟨n, werr, err1, _, _, _, _, hout, hne, _⟩
    · rw [hout] at hret
      cases hret
    · rw [hout] at hret
      injection hret with _ he
      rw [← he]
      exact hne
    · rw [hout] at hret
      injection hret with _ he
      rw [← he]
      exact hne
  · intro src dst written src1 dst1 written1 events rest _ ih c err hret
    exact ih c err hret

theorem quiet_of_no_read (l : List Event) (h : l.all (fun x => !x.isRead) = true) :
    quietAfterStop l = true := by
  induction l with
  | nil => rfl
  | cons e rest ih =>
    simp only [List.all_cons, Bool.and_eq_true] at h
    simp only [quietAfterStop, Bool.and_eq_true, Bool.or_eq_true]
    exact ⟨Or.inr h.2, ih h.2⟩

/-- No `Read` follows a `Read` that returned an error or a `Write` that failed or was short. -/
theorem copyLoop_quiet {σ δ : Type} (R : Reader σ) (W : Writer δ) (fuel : Nat)
    (src : σ) (dst : δ) (written : Int) :
    quietAfterStop (copyLoop R W fuel src dst written).events = true := by
  refine copyLoop_induct R W (fun _ _ _ run => quietAfterStop run.events = true)
    ?_ ?_ ?_ fuel src dst written
  · intro _ _ _
    rfl
  · intro src dst written run h
    obtain ⟨data, rerr, _, hc⟩ := copyStep_done R W src dst written run h
    have key : ∀ tail : List Event, tail.all (fun x => !x.isRead) = true →
        quietAfterStop (Event.read ⟨data, rerr⟩ :: tail) = true := by
      intro tail ht
      simp only [quietAfterStop, Bool.and_eq_true, Bool.or_eq_true]
      exact ⟨Or.inr ht, quiet_of_no_read tail ht⟩
    rcases hc with ⟨_, _, hev, _⟩ | ⟨_, _, _, hev, _⟩ | ⟨n, werr, err, _, _, _, hev, _⟩
    · rw [hev]
      exact key _ (all_notRead_logReadError rerr)
    · rw [hev]
      exact key _ (all_notRead_logReadError rerr)
    · rw [hev]
      refine key _ ?_
      rw [List.all_append, all_notRead_logReadError]
      rfl
  · intro src dst written src1 dst1 written1 events rest h ih
    obtain ⟨data, _, _, hc⟩ := copyStep_next R W src dst written src1 dst1 written1 events h
    rcases hc with ⟨_, _, _, hev⟩ | ⟨_, _, _, hev⟩
    · rw [hev]
      simpa [quietAfterStop, Event.stops] using ih
    · rw [hev]
      simpa [quietAfterStop, Event.stops] using ih

/-- The payloads written are, in order, the non-empty chunks read; only the last chunk read
may be left unwritten. -/
theorem copyLoop_payloads {σ δ : Type} (R : Reader σ) (W : Writer δ) (fuel : Nat)
    (src : σ) (dst : δ) (written : Int) :
    payloads (copyLoop R W fuel src dst written).events
      <+: (chunksRead (copyLoop R W fuel src dst written).events).filter
        (fun c => !c.isEmpty) := by
  refine copyLoop_induct R W
    (fun _ _ _ run => payloads run.events <+: (chunksRead run.events).filter
      (fun c => !c.isEmpty)) ?_ ?_ ?_ fuel src dst written
  · intro _ _ _
    exact List.prefix_refl _
  · intro src dst written run h
    obtain ⟨data, rerr, _, hc⟩ := copyStep_done R W src dst written run h
    rcases hc with ⟨_, _, hev, _⟩ | ⟨_, _, _, hev, _⟩ | ⟨n, werr, err, hd, _, _, hev, _⟩
    · rw [hev]
      simp [payloads, payloads_logReadError]
    · rw [hev]
      simp [payloads, payloads_logReadError]
    · rw [hev]
      have hne : data.isEmpty = false := isEmpty_false_of_ne_nil data (by assumption)
      simp [payloads, chunksRead, payloads_append, chunksRead_append,
        payloads_logReadError, chunksRead_logReadError, hne]
  · intro src dst written src1 dst1 written1 events rest h ih
    obtain ⟨data, _, _, hc⟩ := copyStep_next R W src dst written src1 dst1 written1 events h
    simp only [payloads_append, chunksRead_append]
    rcases hc with ⟨_, _, _, hev⟩ | ⟨hd, _, _, hev⟩
    · rw [hev]
      simpa [payloads, chunksRead] using ih
    · rw [hev]
      have hne : data.isEmpty = false := isEmpty_false_of_ne_nil data (by assumption)
      simpa [payloads, chunksRead, hne, List.prefix_cons_inj] using ih

/-- Once the loop has left the function, more passes change nothing. -/
theorem copyLoop_stable {σ δ : Type} (R : Reader σ) (W : Writer δ) (fuel m : Nat)
    (src : σ) (dst : δ) (written : Int)
    (h : (copyLoop R W fuel src dst written).outcome ≠ .running) :
    copyLoop R W (fuel + m) src dst written = copyLoop R W fuel src dst written := by
  induction fuel generalizing src dst written with
  | zero => exact absurd rfl h
  | succ n ih =>
    have e : n + 1 + m = (n + m) + 1 := by omega
    rw [e]
    unfold copyLoop at h ⊢
    cases hs : copyStep R W src dst written with
    | done run => rfl
    | next src1 dst1 written1 events =>
      rw [hs] at h
      simp only at h ⊢
      rw [ih src1 dst1 written1 h]

/-- A short write without an error is the last call, and the loop returns
`io.ErrShortWrite` with the count of the bytes taken. -/
theorem copyLoop_short_write {σ δ : Type} (R : Reader σ) (W : Writer δ) (fuel : Nat)
    (src : σ) (dst : δ) (written : Int) (hw : wrapInt64 written = written)
    (p : List UInt8) (wr : WriteResult)
    (hmem : Event.write p wr ∈ (copyLoop R W fuel src dst written).events)
    (hshort : wr.n < p.length) (hnil : wr.err = none) :
    (copyLoop R W fuel src dst written).events.getLast? = some (.write p wr) ∧
      (copyLoop R W fuel src dst written).outcome
        = .returned (wrapInt64 (written
            + (accepted (copyLoop R W fuel src dst written).events).length))
          (some .ErrShortWrite) := by
  revert hw hmem
  refine copyLoop_induct R W
    (fun _ _ written run => wrapInt64 written = written → Event.write p wr ∈ run.events →
      run.events.getLast? = some (.write p wr) ∧
      run.outcome = .returned (wrapInt64 (written + (accepted run.events).length))
        (some .ErrShortWrite)) ?_ ?_ ?_ fuel src dst written
  · intro _ _ _ _ hmem
    simp at hmem
  · intro src dst written run h hw hmem
    obtain ⟨data, rerr, _, hc⟩ := copyStep_done R W src dst written run h
    rcases hc with ⟨_, _, hev, _⟩ | ⟨_, _, _, hev, _⟩ |
      ⟨n, werr, err, _, _, _, hev, hout, _, hcase⟩
    · rw [hev] at hmem
      rcases List.mem_cons.1 hmem with hm | hm
      · cases hm
      · exact absurd hm (write_not_mem_logReadError _ _ _)
    · rw [hev] at hmem
      rcases List.mem_cons.1 hmem with hm | hm
      · cases hm
      · exact absurd hm (write_not_mem_logReadError _ _ _)
    · rw [hev] at hmem
      have hm : Event.write p wr = Event.write data ⟨n, werr⟩ := by
        rcases List.mem_cons.1 hmem with hm | hm
        · cases hm
        · rcases List.mem_append.1 hm with hm | hm
          · exact absurd hm (write_not_mem_logReadError _ _ _)
          · simpa using hm
      injection hm with hp hwr
      subst hp hwr
      simp only at hshort hnil
      have herr : err = some .ErrShortWrite := by
        rcases hcase with ⟨hne, _⟩ | ⟨_, _, he⟩ | ⟨_, heq, _⟩
        · exact absurd hnil hne
        · exact he
        · omega
      have hlen : ((accepted run.events).length : Int) = if 0 < n then n else 0 := by
        rw [hev]
        simp only [accepted, accepted_append, accepted_logReadError, List.nil_append,
          List.append_nil, List.length_take]
        split_ifs with hpos <;> omega
      refine ⟨?_, ?_⟩
      · rw [hev, ← List.cons_append, List.getLast?_append_of_ne_nil _ (by simp)]
        rfl
      · rw [hout, herr, hlen]
        split_ifs with hpos
        · rfl
        · rw [Int.add_zero, hw]
  · intro src dst written src1 dst1 written1 events rest h ih hw hmem
    obtain ⟨data, _, _, hc⟩ := copyStep_next R W src dst written src1 dst1 written1 events h
    simp only at hmem ⊢
    have hrest : Event.write p wr ∈ rest.events := by
      rcases List.mem_append.1 hmem with hm | hm
      · rcases hc with ⟨_, _, _, hev⟩ | ⟨_, _, _, hev⟩
        · rw [hev] at hm
          simp at hm
        · rw [hev] at hm
          simp at hm
          obtain ⟨hp, hwr⟩ := hm
          subst hp hwr
          simp at hshort
      · exact hm
    have hw1 : wrapInt64 written1 = written1 := by
      rcases hc with ⟨_, _, hw1, _⟩ | ⟨_, _, hw1, _⟩
      · rw [hw1, hw]
      · rw [hw1, wrapInt64_idem]
    obtain ⟨hl, ho⟩ := ih hw1 hrest
    refine ⟨?_, ?_⟩
    · rw [List.getLast?_append_of_ne_nil _ (List.ne_nil_of_mem hrest)]
      exact hl
    · rw [ho, accepted_append]
      rcases hc with ⟨_, _, hw1, hev⟩ | ⟨_, _, hw1, hev⟩
      · rw [hev, hw1]
        simp [accepted]
      · rw [hev, hw1, wrapInt64_wrap_add]
        simp [accepted, Int.add_assoc]

/-! ### Passes with known results -/

/-- A pass whose read is empty and without error: the loop goes on, nothing is written. -/
theorem copyStep_idle {σ δ : Type} (R : Reader σ) (W : Writer δ) (src src1 : σ) (dst : δ)
    (written : Int) (hr : R.Read src bufSize = (src1, ⟨[], none⟩)) :
    copyStep R W src dst written = .next src1 dst written [.read ⟨[], none⟩] := by
  simp [copyStep, hr, logReadError]

/-- A pass whose read is empty and comes with an error: the function returns that error. -/
theorem copyStep_empty_error {σ δ : Type} (R : Reader σ) (W : Writer δ) (src src1 : σ)
    (dst : δ) (written : Int) (e : Error) (hr : R.Read src bufSize = (src1, ⟨[], some e⟩)) :
    copyStep R W src dst written
      = .done ⟨src1, dst, Event.read ⟨[], some e⟩ :: logReadError (some e),
          .returned written (some e)⟩ := by
  simp [copyStep, hr]

/-- A pass whose read fits the buffer and is written in full. -/
theorem copyStep_full {σ δ : Type} (R : Reader σ) (W : Writer δ) (src src1 : σ)
    (dst dst1 : δ) (written : Int) (data : List UInt8) (rerr : Option Error)
    (hr : R.Read src bufSize = (src1, ⟨data, rerr⟩)) (hd : data ≠ [])
    (hsize : data.length ≤ bufSize)
    (hwr : W.Write dst data = (dst1, ⟨data.length, none⟩)) :
    copyStep R W src dst written =
      if rerr.isSome then
        .done ⟨src1, dst1,
          Event.read ⟨data, rerr⟩ :: (logReadError rerr ++ [Event.write data ⟨data.length, none⟩]),
          .returned (wrapInt64 (written + data.length)) rerr⟩
      else
        .next src1 dst1 (wrapInt64 (written + data.length))
          (Event.read ⟨data, rerr⟩ :: (logReadError rerr ++ [Event.write data ⟨data.length, none⟩]))
      := by
  have hpos : 0 < data.length := List.length_pos.2 hd
  have hnot : ¬ bufSize < data.length := by omega
  have hposI : (0 : Int) < data.length := by omega
  simp [copyStep, hr, hwr, hpos, hnot, hposI]

/-- A source that replays `chunks` without error and then `last` with the error `e`, into a
destination that takes every write in full: the loop returns `e` after writing every
non-empty chunk, and the count is the number of bytes produced. -/
theorem copyLoop_script {σ δ : Type} (R : Reader σ) (W : Writer δ)
    (hdst : ∀ d p, (W.Write d p).2 = ⟨p.length, none⟩) (last : List UInt8) (e : Error)
    (hlast : last.length ≤ bufSize) (chunks : List (List UInt8)) :
    ∀ (src : σ) (dst : δ) (written : Int) (fuel : Nat),
      Reader.results R (chunks.length + 1) src
        = chunks.map (fun c => ⟨c, none⟩) ++ [⟨last, some e⟩] →
      (∀ c ∈ chunks, c.length ≤ bufSize) →
      0 ≤ written →
      written + ((chunks ++ [last]).flatten.length : Int) < 9223372036854775808 →
      chunks.length + 1 ≤ fuel →
      (copyLoop R W fuel src dst written).outcome
          = .returned (written + ((chunks ++ [last]).flatten.length : Int)) (some e) ∧
        accepted (copyLoop R W fuel src dst written).events = (chunks ++ [last]).flatten ∧
        payloads (copyLoop R W fuel src dst written).events
          = (chunks ++ [last]).filter (fun c => !c.isEmpty) ∧
        chunksRead (copyLoop R W fuel src dst written).events = chunks ++ [last] := by
  induction chunks with
  | nil =>
    intro src dst written fuel hsrc _ h0 hfit hfuel
    obtain ⟨n, rfl⟩ : ∃ n, fuel = n + 1 := ⟨fuel - 1, by simp at hfuel; omega⟩
    simp only [Reader.results, List.length_nil, List.map_nil, List.nil_append,
      List.cons.injEq, and_true] at hsrc
    have hr : R.Read src bufSize = ((R.Read src bufSize).1, ⟨last, some e⟩) := by
      rw [← hsrc]
    simp only [List.nil_append, List.flatten_cons, List.flatten_nil, List.append_nil] at hfit ⊢
    unfold copyLoop
    by_cases hd : last = []
    · subst hd
      rw [copyStep_empty_error R W src _ dst written e hr]
      simp [accepted, payloads, chunksRead, accepted_logReadError, payloads_logReadError,
        chunksRead_logReadError]
    · have hwr : W.Write dst last = ((W.Write dst last).1, ⟨last.length, none⟩) := by
        rw [← hdst dst last]
      rw [copyStep_full R W src _ dst _ written last (some e) hr hd hlast hwr]
      have hne : last.isEmpty = false := isEmpty_false_of_ne_nil last hd
      have hw : wrapInt64 (written + last.length) = written + last.length :=
        wrapInt64_of_range _ (by omega) (by omega)
      simp [accepted, payloads, chunksRead, accepted_append, payloads_append,
        chunksRead_append, accepted_logReadError, payloads_logReadError,
        chunksRead_logReadError, hne, hw]
  | cons c cs ih =>
    intro src dst written fuel hsrc hsize h0 hfit hfuel
    obtain ⟨n, rfl⟩ : ∃ n, fuel = n + 1 := ⟨fuel - 1, by simp at hfuel; omega⟩
    rw [List.length_cons, Reader.results] at hsrc
    simp only [List.map_cons, List.cons_append, List.cons.injEq] at hsrc
    obtain ⟨hhead, htail⟩ := hsrc
    have hr : R.Read src bufSize = ((R.Read src bufSize).1, ⟨c, none⟩) := by
      rw [← hhead]
    have hcs : ∀ x ∈ cs, x.length ≤ bufSize := fun x hx => hsize x (List.mem_cons_of_mem _ hx)
    have hc : c.length ≤ bufSize := hsize c (List.mem_cons_self _ _)
    simp only [List.cons_append, List.flatten_cons, List.length_append, Nat.cast_add]
      at hfit ⊢
    have hfuel1 : cs.length + 1 ≤ n := by simp at hfuel; omega
    unfold copyLoop
    by_cases hd : c = []
    · subst hd
      rw [copyStep_idle R W src _ dst written hr]
      obtain ⟨h1, h2, h3, h4⟩ := ih _ dst written n htail hcs h0 (by simpa using hfit) hfuel1
      refine ⟨?_, ?_, ?_, ?_⟩
      · simp only [h1]
        congr 1
        simp
      · simp [accepted, h2]
      · simp [payloads, h3]
      · simp [chunksRead, h4]
    · have hwr : W.Write dst c = ((W.Write dst c).1, ⟨c.length, none⟩) := by
        rw [← hdst dst c]
      rw [copyStep_full R W src _ dst _ written c none hr hd hc hwr]
      have hne : c.isEmpty = false := isEmpty_false_of_ne_nil c hd
      have hlen : (0 : Int) ≤ ((cs ++ [last]).flatten.length : Int) := Int.natCast_nonneg _
      have hw : wrapInt64 (written + c.length) = written + c.length :=
        wrapInt64_of_range _ (by omega) (by omega)
      rw [hw]
      obtain ⟨h1, h2, h3, h4⟩ := ih _ (W.Write dst c).1 (written + c.length) n htail hcs
        (by omega) (by omega) hfuel1
      simp only [Option.isSome_none, Bool.false_eq_true, if_false, logReadError,
        List.nil_append]
      refine ⟨?_, ?_, ?_, ?_⟩
      · rw [h1]
        congr 1
        omega
      · simp [accepted, h2]
      · simp [payloads, h3, hne]
      · simp [chunksRead, h4]

/-- The calls made on a source that replays `chunks` without error and then `last` with the
error `e`, into a destination that takes every write in full: a full pass per chunk, then
the read of `last`, the log line for `e`, and the write of `last` when it is not empty. -/
theorem copyLoop_script_events {σ δ : Type} (R : Reader σ) (W : Writer δ)
    (hdst : ∀ d p, (W.Write d p).2 = ⟨p.length, none⟩) (last : List UInt8) (e : Error)
    (hlast : last.length ≤ bufSize) (chunks : List (List UInt8)) :
    ∀ (src : σ) (dst : δ) (written : Int) (fuel : Nat),
      Reader.results R (chunks.length + 1) src
        = chunks.map (fun c => ⟨c, none⟩) ++ [⟨last, some e⟩] →
      (∀ c ∈ chunks, c.length ≤ bufSize) →
      chunks.length + 1 ≤ fuel →
      (copyLoop R W fuel src dst written).events
        = chunks.flatMap fullPass
          ++ Event.read ⟨last, some e⟩ :: (logReadError (some e)
            ++ (if last = [] then [] else [Event.write last ⟨last.length, none⟩])) := by
  induction chunks with
  | nil =>
    intro src dst written fuel hsrc _ hfuel
    obtain ⟨n, rfl⟩ : ∃ n, fuel = n + 1 := ⟨fuel - 1, by simp at hfuel; omega⟩
    simp only [Reader.results, List.length_nil, List.map_nil, List.nil_append,
      List.cons.injEq, and_true] at hsrc
    have hr : R.Read src bufSize = ((R.Read src bufSize).1, ⟨last, some e⟩) := by
      rw [← hsrc]
    unfold copyLoop
    by_cases hd : last = []
    · subst hd
      rw [copyStep_empty_error R W src _ dst written e hr]
      simp
    · have hwr : W.Write dst last = ((W.Write dst last).1, ⟨last.length, none⟩) := by
        rw [← hdst dst last]
      rw [copyStep_full R W src _ dst _ written last (some e) hr hd hlast hwr]
      simp [hd]
  | cons c cs ih =>
    intro src dst written fuel hsrc hsize hfuel
    obtain ⟨n, rfl⟩ : ∃ n, fuel = n + 1 := ⟨fuel - 1, by simp at hfuel; omega⟩
    rw [List.length_cons, Reader.results] at hsrc
    simp only [List.map_cons, List.cons_append, List.cons.injEq] at hsrc
    obtain ⟨hhead, htail⟩ := hsrc
    have hr : R.Read src bufSize = ((R.Read src bufSize).1, ⟨c, none⟩) := by
      rw [← hhead]
    have hcs : ∀ x ∈ cs, x.length ≤ bufSize := fun x hx => hsize x (List.mem_cons_of_mem _ hx)
    have hc : c.length ≤ bufSize := hsize c (List.mem_cons_self _ _)
    have hfuel1 : cs.length + 1 ≤ n := by simp at hfuel; omega
    unfold copyLoop
    by_cases hd : c = []
    · subst hd
      rw [copyStep_idle R W src _ dst written hr]
      simp only [List.flatMap_cons, List.append_assoc]
      rw [ih _ dst written n htail hcs hfuel1]
      simp [fullPass]
    · have hwr : W.Write dst c = ((W.Write dst c).1, ⟨c.length, none⟩) := by
        rw [← hdst dst c]
      rw [copyStep_full R W src _ dst _ written c none hr hd hc hwr]
      simp only [Option.isSome_none, Bool.false_eq_true, if_false, List.flatMap_cons,
        List.append_assoc]
      rw [ih _ (W.Write dst c).1 _ n htail hcs hfuel1]
      have hlog : logReadError none = [] := rfl
      simp [fullPass, hd, hlog]

/-- When the `k`-th read is the first to return an error, the loop makes at most `k` reads
and has left the function after `k` passes. -/
theorem copyLoop_reads_bound {σ δ : Type} (R : Reader σ) (W : Writer δ) (lastr : ReadResult)
    (hlast : lastr.err ≠ none) (fuel : Nat) :
    ∀ (goods : List ReadResult) (src : σ) (dst : δ) (written : Int),
      Reader.results R (goods.length + 1) src = goods ++ [lastr] →
      (∀ r ∈ goods, r.err = none) →
      (chunksRead (copyLoop R W fuel src dst written).events).length ≤ goods.length + 1 ∧
        (goods.length + 1 ≤ fuel →
          (copyLoop R W fuel src dst written).outcome ≠ .running) := by
  induction fuel with
  | zero =>
    intro goods src dst written _ _
    exact ⟨by simp [copyLoop, chunksRead], fun h => by omega⟩
  | succ n ih =>
    intro goods src dst written hsrc hgood
    unfold copyLoop
    cases hs : copyStep R W src dst written with
    | done run =>
      obtain ⟨data, rerr, _, hc⟩ := copyStep_done R W src dst written run hs
      rcases hc with ⟨_, _, hev, hout⟩ | ⟨_, _, _, hev, hout⟩ |
        ⟨k, werr, err, _, _, _, hev, hout, _⟩
      · simp [hev, hout, chunksRead, chunksRead_logReadError]
      · simp [hev, hout, chunksRead, chunksRead_logReadError]
      · simp [hev, hout, chunksRead, chunksRead_append, chunksRead_logReadError]
    | next src1 dst1 written1 events =>
      obtain ⟨data, hr, _, hc⟩ := copyStep_next R W src dst written src1 dst1 written1 events hs
      have hone : (chunksRead events).length = 1 := by
        rcases hc with ⟨_, _, _, hev⟩ | ⟨_, _, _, hev⟩ <;> simp [hev, chunksRead]
      cases goods with
      | nil =>
        simp only [Reader.results, List.length_nil, List.nil_append, List.cons.injEq,
          and_true] at hsrc
        rw [hr] at hsrc
        rw [← hsrc] at hlast
        exact absurd rfl hlast
      | cons g gs =>
        rw [List.length_cons, Reader.results, hr] at hsrc
        simp only [List.cons_append, List.cons.injEq] at hsrc
        obtain ⟨h1, h2⟩ := ih gs src1 dst1 written1 hsrc.2
          (fun r hr => hgood r (List.mem_cons_of_mem _ hr))
        simp only [chunksRead_append, List.length_append, List.length_cons, hone]
        exact ⟨by omega, fun h => h2 (by omega)⟩

/-- A source that never has data and never fails keeps the loop running for ever: after any
number of passes it has not returned, and it has made that many reads. -/
theorem copyLoop_idle {δ : Type} (W : Writer δ) (fuel : Nat) (dst : δ) (written : Int) :
    (copyLoop idleReader W fuel () dst written).outcome = .running ∧
      (chunksRead (copyLoop idleReader W fuel () dst written).events).length = fuel := by
  induction fuel with
  | zero => exact ⟨rfl, rfl⟩
  | succ n ih =>
    unfold copyLoop
    rw [copyStep_idle idleReader W () () dst written rfl]
    simp only [chunksRead_append, List.length_append]
    exact ⟨ih.1, by rw [ih.2]; simp [chunksRead]; omega⟩

/-! ### Rendering of `docsURL` -/

/-- Setting the fragment of a URL only changes the end of its rendering. -/
theorem String_with_fragment (esc : Escaper) (u : URL) (f : String) :
    URL.String esc { u with Fragment := f }
      = URL.String esc { u with Fragment := "" }
        ++ (if f = "" then "" else "#" ++ esc.fragment f) := by
  unfold URL.String
  by_cases hf : f = ""
  · simp [hf]
  · simp [hf, String.append_assoc]

theorem flatten_filter_nonempty (l : List (List UInt8)) :
    (l.filter (fun c => !c.isEmpty)).flatten = l.flatten := by
  induction l with
  | nil => rfl
  | cons c cs ih =>
    cases c with
    | nil => simpa using ih
    | cons b bs => simp [List.filter, ih]

/-! ## Stream copier: theorems -/

/-- C4: a source that delivers `chunks` and then `last` with `io.EOF`, each at most 32768
bytes, copied into a destination that takes every write in full: `copyResponse` returns
when given enough passes, the destination has taken exactly the concatenation of the chunks
in order, each non-empty chunk in one write, and the count returned is the number of bytes
produced (a total within the range of the `int64` counter). -/
theorem copyResponse_lossless {σ δ : Type} (R : Reader σ) (W : Writer δ) (src : σ) (dst : δ)
    (chunks : List (List UInt8)) (last : List UInt8) (fuel : Nat)
    (hsrc : Reader.results R (chunks.length + 1) src
      = chunks.map (fun c => ⟨c, none⟩) ++ [⟨last, some .EOF⟩])
    (hsize : ∀ c ∈ chunks ++ [last], c.length ≤ bufSize)
    (hdst : ∀ d p, (W.Write d p).2 = ⟨p.length, none⟩)
    (hfit : ((chunks ++ [last]).flatten.length : Int) < 9223372036854775808)
    (hfuel : chunks.length + 1 ≤ fuel) :
    (copyResponse R W fuel dst src).outcome
        = .returned ((chunks ++ [last]).flatten.length : Int) (some .EOF) ∧
      accepted (copyResponse R W fuel dst src).events = (chunks ++ [last]).flatten ∧
      (payloads (copyResponse R W fuel dst src).events).flatten = (chunks ++ [last]).flatten ∧
      payloads (copyResponse R W fuel dst src).events
        = (chunks ++ [last]).filter (fun c => !c.isEmpty) ∧
      chunksRead (copyResponse R W fuel dst src).events = chunks ++ [last] := by
  have hl : last.length ≤ bufSize := hsize last (by simp)
  have hc : ∀ c ∈ chunks, c.length ≤ bufSize := fun c h => hsize c (by simp [h])
  obtain ⟨h1, h2, h3, h4⟩ := copyLoop_script R W hdst last .EOF hl chunks src dst 0 fuel hsrc hc
    (le_refl _) (by simpa using hfit) hfuel
  unfold copyResponse
  refine ⟨?_, h2, ?_, h3, h4⟩
  · rw [h1, Int.zero_add]
  · rw [h3, flatten_filter_nonempty]

/-- A script of three chunks (one of them empty) followed by `io.EOF`, copied into a writer
that keeps everything. -/
theorem copyResponse_lossless_witness :
    (copyResponse scriptReader recorder 4 []
        [⟨[1, 2], none⟩, ⟨[], none⟩, ⟨[3], none⟩]).outcome = .returned 3 (some .EOF) ∧
      accepted (copyResponse scriptReader recorder 4 []
        [⟨[1, 2], none⟩, ⟨[], none⟩, ⟨[3], none⟩]).events = [1, 2, 3] :=
  ⟨(copyResponse_lossless scriptReader recorder [⟨[1, 2], none⟩, ⟨[], none⟩, ⟨[3], none⟩] []
      [[1, 2], [], [3]] [] 4 rfl (by decide) (fun _ _ => rfl) (by decide) (by decide)).1,
   (copyResponse_lossless scriptReader recorder [⟨[1, 2], none⟩, ⟨[], none⟩, ⟨[3], none⟩] []
      [[1, 2], [], [3]] [] 4 rfl (by decide) (fun _ _ => rfl) (by decide) (by decide)).2.1⟩

/-- C5: when some `Write` of `copyResponse` returns a count below the number of bytes given
and a nil error, that call is the last one made (granting more passes changes nothing),
the outcome is `io.ErrShortWrite`, the bytes the destination has taken are an initial part
of the bytes the source produced, and the count returned is the number of bytes taken
(as an `int64`; equal to it when it is below `2^63`). -/
theorem copyResponse_short_write {σ δ : Type} (R : Reader σ) (W : Writer δ) (fuel : Nat)
    (src : σ) (dst : δ) (p : List UInt8) (wr : WriteResult)
    (hmem : Event.write p wr ∈ (copyResponse R W fuel dst src).events)
    (hshort : wr.n < p.length) (hnil : wr.err = none) :
    (copyResponse R W fuel dst src).events.getLast? = some (.write p wr) ∧
      (∀ more, copyResponse R W (fuel + more) dst src = copyResponse R W fuel dst src) ∧
      (copyResponse R W fuel dst src).outcome
        = .returned (wrapInt64 (accepted (copyResponse R W fuel dst src).events).length)
          (some .ErrShortWrite) ∧
      (((accepted (copyResponse R W fuel dst src).events).length : Int) < 9223372036854775808 →
        (copyResponse R W fuel dst src).outcome
          = .returned (accepted (copyResponse R W fuel dst src).events).length
            (some .ErrShortWrite)) ∧
      accepted (copyResponse R W fuel dst src).events
        <+: produced (copyResponse R W fuel dst src).events := by
  unfold copyResponse at hmem ⊢
  obtain ⟨hl, ho⟩ := copyLoop_short_write R W fuel src dst 0 rfl p wr hmem hshort hnil
  rw [Int.zero_add] at ho
  refine ⟨hl, ?_, ho, ?_, accepted_prefix_produced R W fuel src dst 0⟩
  · intro more
    exact copyLoop_stable R W fuel more src dst 0 (by rw [ho]; simp)
  · intro hfit
    rw [ho, wrapInt64_of_range _ (by omega) hfit]

/-- Three bytes copied into a writer with room for two: the write of `[1, 2, 3]` returns 2
and a nil error. -/
theorem copyResponse_short_write_witness :
    (copyResponse bytesReader (cappedWriter 2) 5 [] [1, 2, 3]).outcome
        = .returned 2 (some .ErrShortWrite) ∧
      (copyResponse bytesReader (cappedWriter 2) 5 [] [1, 2, 3]).events.getLast?
        = some (.write [1, 2, 3] ⟨2, none⟩) :=
  ⟨(copyResponse_short_write bytesReader (cappedWriter 2) 5 [1, 2, 3] [] [1, 2, 3] ⟨2, none⟩
      (by decide) (by decide) rfl).2.2.2.1 (by decide),
   (copyResponse_short_write bytesReader (cappedWriter 2) 5 [1, 2, 3] [] [1, 2, 3] ⟨2, none⟩
      (by decide) (by decide) rfl).1⟩

/-- C6: in a run of `copyResponse` on a source whose reads deliver `chunks` without error
and then `data` together with an error `e` (`io.EOF` or any other), every read within the
buffer, into a destination that takes every write in full: after the passes for `chunks`
the read of `data` is followed by the write of `data` (no call when `data` is empty) as the
last call, and `copyResponse` returns the total of the bytes written, those of `data`
included, together with `e` (a total within the range of `int64`).  The error returned by
`copyResponse` is never nil, and a copy that runs to the end of the source with every write
taken in full returns `io.EOF`. -/
theorem copyResponse_read_error {σ δ : Type} (R : Reader σ) (W : Writer δ) (src : σ) (dst : δ)
    (chunks : List (List UInt8)) (data : List UInt8) (e : Error) (fuel : Nat)
    (hsrc : Reader.results R (chunks.length + 1) src
      = chunks.map (fun c => ⟨c, none⟩) ++ [⟨data, some e⟩])
    (hsize : ∀ c ∈ chunks ++ [data], c.length ≤ bufSize)
    (hdst : ∀ d p, (W.Write d p).2 = ⟨p.length, none⟩)
    (hfit : ((chunks ++ [data]).flatten.length : Int) < 9223372036854775808)
    (hfuel : chunks.length + 1 ≤ fuel) :
    (copyResponse R W fuel dst src).events
        = chunks.flatMap fullPass
          ++ Event.read ⟨data, some e⟩ :: (logReadError (some e)
            ++ (if data = [] then [] else [Event.write data ⟨data.length, none⟩])) ∧
      (copyResponse R W fuel dst src).outcome
        = .returned ((chunks.flatten.length : Int) + data.length) (some e) ∧
      accepted (copyResponse R W fuel dst src).events = chunks.flatten ++ data ∧
      (∀ n dst1 src1 c err,
        (copyResponse R W n dst1 src1).outcome = .returned c err → err ≠ none) ∧
      (∀ (parts : List (List UInt8)) (last : List UInt8) n dst1 src1,
        Reader.results R (parts.length + 1) src1
          = parts.map (fun c => ⟨c, none⟩) ++ [⟨last, some .EOF⟩] →
        (∀ c ∈ parts ++ [last], c.length ≤ bufSize) →
        ((parts ++ [last]).flatten.length : Int) < 9223372036854775808 →
        parts.length + 1 ≤ n →
        (copyResponse R W n dst1 src1).outcome
          = .returned ((parts ++ [last]).flatten.length : Int) (some .EOF)) := by
  have hl : data.length ≤ bufSize := hsize data (by simp)
  have hc : ∀ c ∈ chunks, c.length ≤ bufSize := fun c h => hsize c (by simp [h])
  obtain ⟨h1, h2, _, _⟩ := copyLoop_script R W hdst data e hl chunks src dst 0 fuel hsrc hc
    (le_refl _) (by simpa using hfit) hfuel
  refine ⟨?_, ?_, ?_, ?_, ?_⟩
  · exact copyLoop_script_events R W hdst data e hl chunks src dst 0 fuel hsrc hc hfuel
  · unfold copyResponse
    rw [h1]
    simp
  · unfold copyResponse
    rw [h2]
    simp
  · intro n dst1 src1 c err h
    exact copyLoop_error_ne_nil R W n src1 dst1 0 c err h
  · intro parts last n dst1 src1 hsrc1 hsz hfit1 hfuel1
    have hl1 : last.length ≤ bufSize := hsz last (by simp)
    have hc1 : ∀ c ∈ parts, c.length ≤ bufSize := fun c h => hsz c (by simp [h])
    have h3 := (copyLoop_script R W hdst last .EOF hl1 parts src1 dst1 0 n hsrc1 hc1
      (le_refl _) (by simpa using hfit1) hfuel1).1
    unfold copyResponse
    rw [h3, Int.zero_add]

/-- A source that delivers three bytes and then two bytes together with a network error,
copied into a writer that keeps everything: the two bytes are written last, and
`copyResponse` returns 5 and that error. -/
theorem copyResponse_read_error_witness :
    (copyResponse scriptReader recorder 2 []
        [⟨[1, 2, 3], none⟩, ⟨[7, 8], some (.net "connection reset")⟩]).events
        = [.read ⟨[1, 2, 3], none⟩, .write [1, 2, 3] ⟨3, none⟩,
           .read ⟨[7, 8], some (.net "connection reset")⟩,
           .log "error during body copy: connection reset",
           .write [7, 8] ⟨2, none⟩] ∧
      (copyResponse scriptReader recorder 2 []
        [⟨[1, 2, 3], none⟩, ⟨[7, 8], some (.net "connection reset")⟩]).outcome
        = .returned 5 (some (.net "connection reset")) :=
  ⟨(copyResponse_read_error scriptReader recorder
      [⟨[1, 2, 3], none⟩, ⟨[7, 8], some (.net "connection reset")⟩] [] [[1, 2, 3]] [7, 8]
      (.net "connection reset") 2 rfl (by decide) (fun _ _ => rfl) (by decide)
      (by decide)).1,
   (copyResponse_read_error scriptReader recorder
      [⟨[1, 2, 3], none⟩, ⟨[7, 8], some (.net "connection reset")⟩] [] [[1, 2, 3]] [7, 8]
      (.net "connection reset") 2 rfl (by decide) (fun _ _ => rfl) (by decide)
      (by decide)).2.1⟩

/-- C10: when the `k`-th `Read` is the first to return an error (`k` is one more than the
number of reads before it), then for every destination `copyResponse` makes at most `k`
reads and at most as many writes as reads, has left the function after `k` passes and makes
no further call when granted more; no `Read` follows a `Read` that returned an error or a
`Write` that failed or was short; the payloads written are, in order, non-empty chunks
read.  Without the precondition it need not terminate: on a source that always returns zero
bytes and a nil error the loop is still running after any number of passes. -/
theorem copyResponse_terminates {σ δ : Type} (R : Reader σ) (W : Writer δ) (src : σ) (dst : δ)
    (fuel : Nat) (goods : List ReadResult) (lastr : ReadResult)
    (hsrc : Reader.results R (goods.length + 1) src = goods ++ [lastr])
    (hgood : ∀ r ∈ goods, r.err = none) (hlast : lastr.err ≠ none) :
    (chunksRead (copyResponse R W fuel dst src).events).length ≤ goods.length + 1 ∧
      (payloads (copyResponse R W fuel dst src).events).length
        ≤ (chunksRead (copyResponse R W fuel dst src).events).length ∧
      (copyResponse R W (goods.length + 1) dst src).outcome ≠ .running ∧
      (∀ more, copyResponse R W (goods.length + 1 + more) dst src
        = copyResponse R W (goods.length + 1) dst src) ∧
      quietAfterStop (copyResponse R W fuel dst src).events = true ∧
      payloads (copyResponse R W fuel dst src).events
        <+: (chunksRead (copyResponse R W fuel dst src).events).filter
          (fun c => !c.isEmpty) ∧
      (∀ (W1 : Writer δ) (dst1 : δ) (n : Nat),
        (copyResponse idleReader W1 n dst1 ()).outcome = .running ∧
          (chunksRead (copyResponse idleReader W1 n dst1 ()).events).length = n) := by
  unfold copyResponse
  have hb := copyLoop_reads_bound R W lastr hlast fuel goods src dst 0 hsrc hgood
  have hk := copyLoop_reads_bound R W lastr hlast (goods.length + 1) goods src dst 0 hsrc hgood
  have hp := copyLoop_payloads R W fuel src dst 0
  refine ⟨hb.1, ?_, hk.2 (le_refl _), ?_, copyLoop_quiet R W fuel src dst 0, hp, ?_⟩
  · exact le_trans hp.length_le (List.length_filter_le _ _)
  · intro more
    exact copyLoop_stable R W (goods.length + 1) more src dst 0 (hk.2 (le_refl _))
  · intro W1 dst1 n
    exact copyLoop_idle W1 n dst1 0

/-- Three bytes read from a byte slice: the second read is the first to return an error
(`io.EOF`), and the copy returns after two reads and one write. -/
theorem copyResponse_terminates_witness :
    (chunksRead (copyResponse bytesReader recorder 9 [] [1, 2, 3]).events).length ≤ 2 ∧
      (copyResponse bytesReader recorder 2 [] [1, 2, 3]).outcome
        = .returned 3 (some .EOF) :=
  ⟨(copyResponse_terminates bytesReader recorder [1, 2, 3] [] 9 [⟨[1, 2, 3], none⟩]
      ⟨[], some .EOF⟩ rfl (by decide) (by decide)).1, by decide⟩

/-! ## Proxy handler and middleware: theorems -/

/-- Calls of the copy loop are no `Get`, no `WriteHeader` and no `Close`. -/
theorem observers_of_isCopy (l : List Event) (h : ∀ e ∈ l, e.isCopy = true) :
    getURLs l = [] ∧ statusCodes l = [] ∧ l.filter Event.isClose = [] := by
  induction l with
  | nil => exact ⟨rfl, rfl, rfl⟩
  | cons e rest ih =>
    have he := h e (List.mem_cons_self _ _)
    obtain ⟨h1, h2, h3⟩ := ih (fun x hx => h x (List.mem_cons_of_mem _ hx))
    cases e <;> simp_all [Event.isCopy, getURLs, statusCodes, Event.isClose]

/-- The one `Get` of a call of the proxy handler goes to `docsURL` with the fragment of the
request, and that URL is what the closure keeps. -/
theorem downloadHandler_target {σ δ : Type} (esc : Escaper) (R : Reader σ) (W : Writer δ)
    (fuel : Nat) (Get : String → GetResult σ) (docsURL : URL) (w : δ) (r : Request) :
    getURLs (downloadHandler esc R W fuel Get docsURL w r).events
        = [URL.String esc { docsURL with Fragment := r.URL.Fragment }] ∧
      (downloadHandler esc R W fuel Get docsURL w r).docsURL
        = { docsURL with Fragment := r.URL.Fragment } := by
  have hcopy : ∀ body, getURLs (copyResponse R W fuel w body).events = [] := fun body =>
    (observers_of_isCopy (copyResponse R W fuel w body).events
      (copyLoop_events_isCopy R W fuel body w 0)).1
  cases hg : Get (URL.String esc { docsURL with Fragment := r.URL.Fragment }) with
  | failed err => simp [downloadHandler, hg, getURLs]
  | response code body =>
    cases ho : (copyResponse R W fuel w body).outcome <;>
      simp [downloadHandler, hg, ho, getURLs, getURLs_append, hcopy body]

/-- C7: for requests served one after another by the same closure, the URL given to `Get`
for each request is the configured URL followed by `#` and the (escaped) fragment of that
request, or the configured URL alone when the request has no fragment; the captured URL
keeps scheme, host, path and query and carries that request's fragment; nothing else of the
request and nothing of earlier requests enters. -/
theorem serveAll_targets {σ δ : Type} (esc : Escaper) (R : Reader σ) (W : Writer δ)
    (fuel : Nat) (xs : List (Exchange σ δ)) :
    (serveAll esc R W fuel docsURL0 xs).map (fun run => getURLs run.events)
        = xs.map (fun x => [URL.String esc docsURL0
            ++ (if x.r.URL.Fragment = "" then "" else "#" ++ esc.fragment x.r.URL.Fragment)]) ∧
      (serveAll esc R W fuel docsURL0 xs).map (fun run => run.docsURL)
        = xs.map (fun x => { docsURL0 with Fragment := x.r.URL.Fragment }) ∧
      URL.String plainEscaper docsURL0 = downloads ∧
      URL.String plainEscaper { docsURL0 with Fragment := "bar" } = downloads ++ "#bar" := by
  have key : ∀ (xs : List (Exchange σ δ)) (g : String),
      (serveAll esc R W fuel { docsURL0 with Fragment := g } xs).map
          (fun run => getURLs run.events)
        = xs.map (fun x => [URL.String esc docsURL0
            ++ (if x.r.URL.Fragment = "" then "" else "#" ++ esc.fragment x.r.URL.Fragment)]) ∧
      (serveAll esc R W fuel { docsURL0 with Fragment := g } xs).map (fun run => run.docsURL)
        = xs.map (fun x => { docsURL0 with Fragment := x.r.URL.Fragment }) := by
    intro xs
    induction xs with
    | nil => intro g; exact ⟨rfl, rfl⟩
    | cons x rest ih =>
      intro g
      obtain ⟨h1, h2⟩ := downloadHandler_target esc R W fuel x.Get
        { docsURL0 with Fragment := g } x.w x.r
      have h3 : URL.String esc { docsURL0 with Fragment := x.r.URL.Fragment }
          = URL.String esc docsURL0
            ++ (if x.r.URL.Fragment = "" then "" else "#" ++ esc.fragment x.r.URL.Fragment) :=
        String_with_fragment esc docsURL0 x.r.URL.Fragment
      have h1' : getURLs (downloadHandler esc R W fuel x.Get
            { docsURL0 with Fragment := g } x.w x.r).events
          = [URL.String esc docsURL0
            ++ (if x.r.URL.Fragment = "" then "" else "#" ++ esc.fragment x.r.URL.Fragment)] :=
        h1.trans (congrArg (fun s => [s]) h3)
      have h2' : (downloadHandler esc R W fuel x.Get
            { docsURL0 with Fragment := g } x.w x.r).docsURL
          = { docsURL0 with Fragment := x.r.URL.Fragment } := h2
      have hs : serveAll esc R W fuel { docsURL0 with Fragment := g } (x :: rest)
          = downloadHandler esc R W fuel x.Get { docsURL0 with Fragment := g } x.w x.r
            :: serveAll esc R W fuel (downloadHandler esc R W fuel x.Get
                { docsURL0 with Fragment := g } x.w x.r).docsURL rest := rfl
      obtain ⟨i1, i2⟩ := ih x.r.URL.Fragment
      rw [hs, List.map_cons, List.map_cons, List.map_cons, List.map_cons, h1', h2', i1, i2]
      exact ⟨rfl, rfl⟩
  exact ⟨(key xs "").1, (key xs "").2, by decide, by decide⟩

/-- C8: a call of the proxy handler makes exactly one `Get`.  When the `Get` fails the
handler logs, writes status 500 and returns, with no read, write or close.  When it succeeds
the handler writes the upstream status code, then runs `copyResponse` on the body, and, once
the copy has left its loop (whatever its outcome), closes the body, exactly once and as the
last call; the one status code comes before every write. -/
theorem downloadHandler_relay {σ δ : Type} (esc : Escaper) (R : Reader σ) (W : Writer δ)
    (fuel : Nat) (Get : String → GetResult σ) (docsURL : URL) (w : δ) (r : Request) :
    getURLs (downloadHandler esc R W fuel Get docsURL w r).events
        = [URL.String esc { docsURL with Fragment := r.URL.Fragment }] ∧
      (∀ err, Get (URL.String esc { docsURL with Fragment := r.URL.Fragment }) = .failed err →
        (downloadHandler esc R W fuel Get docsURL w r).events
            = [.get (URL.String esc { docsURL with Fragment := r.URL.Fragment }),
               .log ("error glossary term " ++ err.text), .writeHeader 500] ∧
          (downloadHandler esc R W fuel Get docsURL w r).finished = true ∧
          (downloadHandler esc R W fuel Get docsURL w r).dst = w) ∧
      (∀ code body,
        Get (URL.String esc { docsURL with Fragment := r.URL.Fragment })
          = .response code body →
        ∃ tail, (downloadHandler esc R W fuel Get docsURL w r).events
            = Event.get (URL.String esc { docsURL with Fragment := r.URL.Fragment })
              :: Event.writeHeader code :: ((copyResponse R W fuel w body).events ++ tail) ∧
          (∀ e ∈ (copyResponse R W fuel w body).events, e.isCopy = true) ∧
          ((copyResponse R W fuel w body).outcome = .running →
            tail = [] ∧ (downloadHandler esc R W fuel Get docsURL w r).finished = false) ∧
          ((copyResponse R W fuel w body).outcome ≠ .running →
            tail = [.close] ∧ (downloadHandler esc R W fuel Get docsURL w r).finished = true) ∧
          statusCodes (downloadHandler esc R W fuel Get docsURL w r).events = [code] ∧
          ((downloadHandler esc R W fuel Get docsURL w r).events.filter Event.isClose).length
            ≤ 1 ∧
          (downloadHandler esc R W fuel Get docsURL w r).dst
            = (copyResponse R W fuel w body).dst) := by
  refine ⟨(downloadHandler_target esc R W fuel Get docsURL w r).1, ?_, ?_⟩
  · intro err hg
    simp [downloadHandler, hg, StatusInternalServerError]
  · intro code body hg
    have hc : ∀ e ∈ (copyResponse R W fuel w body).events, e.isCopy = true :=
      copyLoop_events_isCopy R W fuel body w 0
    obtain ⟨_, o2, o3⟩ := observers_of_isCopy _ hc
    cases ho : (copyResponse R W fuel w body).outcome with
    | running =>
      refine ⟨[], ?_⟩
      simp only [downloadHandler, hg, ho]
      simp [statusCodes, statusCodes_append, List.filter_append, Event.isClose,
        o2, o3]
      exact hc
    | returned c err =>
      refine ⟨[.close], ?_⟩
      simp only [downloadHandler, hg, ho]
      simp [statusCodes, statusCodes_append, List.filter_append, Event.isClose,
        o2, o3]
      exact hc
    | panicked =>
      refine ⟨[.close], ?_⟩
      simp only [downloadHandler, hg, ho]
      simp [statusCodes, statusCodes_append, List.filter_append, Event.isClose,
        o2, o3]
      exact hc

/-- A request `GET /foo#bar` relayed from an upstream that answers 200 with two bytes. -/
theorem downloadHandler_relay_witness :
    (downloadHandler plainEscaper bytesReader recorder 5 (fun _ => .response 200 [1, 2])
        docsURL0 [] ⟨"GET", { Path := "/foo", Fragment := "bar" }, fun _ => [], []⟩).events
      = [.get "https://docs.influxdata.com/influxdb/v1.2/concepts/glossary#bar",
         .writeHeader 200, .read ⟨[1, 2], none⟩, .write [1, 2] ⟨2, none⟩,
         .read ⟨[], some .EOF⟩, .close] ∧
    getURLs (downloadHandler plainEscaper bytesReader recorder 5 (fun _ => .response 200 [1, 2])
        docsURL0 [] ⟨"GET", { Path := "/foo", Fragment := "bar" }, fun _ => [], []⟩).events
      = ["https://docs.influxdata.com/influxdb/v1.2/concepts/glossary#bar"] :=
  ⟨by decide,
   (downloadHandler_relay plainEscaper bytesReader recorder 5 (fun _ => .response 200 [1, 2])
      docsURL0 [] ⟨"GET", { Path := "/foo", Fragment := "bar" }, fun _ => [], []⟩).1⟩

/-- C9: for every inner handler and request, `Version(Logger(h))` adds the header
`X-Proxy-Version: 1.0`, then logs the request URL, then calls `h` once with the same
writer and request; the value is appended to those already under the key, and no other key
is touched. -/
theorem Version_Logger {ρ : Type} (esc : Escaper) (h : Handler ρ) (w : ResponseWriter)
    (r : Request) :
    Version (Logger esc h) w r
        = h ⟨w.header.Add "X-Proxy-Version" "1.0",
            w.events ++ [.headerAdd "X-Proxy-Version" "1.0",
              .log ("info " ++ r.URL.String esc)]⟩ r ∧
      (w.header.Add "X-Proxy-Version" "1.0") "X-Proxy-Version"
        = w.header "X-Proxy-Version" ++ ["1.0"] ∧
      (∀ key, key ≠ "X-Proxy-Version" →
        (w.header.Add "X-Proxy-Version" "1.0") key = w.header key) := by
  refine ⟨?_, ?_, ?_⟩
  · simp [Version, Logger, version]
  · simp [Header.Add]
  · intro key hk
    simp [Header.Add, hk]

end Lossyglossy
